import Mathlib

/-!
Verification of the trophic-analysis core (`networkx/algorithms/centrality/trophic.py`)
against its specification.

The repository's only algorithmic function present in the sources is
`trophic_levels`; `trophic_differences` and `trophic_coherence` are exercised by
the test-suite but their code is not among the repository files, so they are
modelled from the specification's component contracts (§4.2, §4.3).

Modelling conventions:
* a directed graph on `n` nodes is a map `w : Fin n → Fin n → Option ℚ`;
  `w j i = some q` is an edge `j → i` carrying weight `q`, `none` is no edge
  (the fixed, deterministic node order of the spec is the order `0, …, n-1`);
* floating-point arithmetic is idealised as exact rational arithmetic;
* `np.linalg.inv` is modelled by the adjugate formula, raising
  (returning `none`) exactly on singular input, i.e. when the determinant is 0;
* a Python function that can raise returns `Option`/`Except`.
-/

namespace TrophicSpec

/-- A directed weighted graph on nodes `0, …, n-1`: `w j i = some q` means there
is an edge `j → i` of weight `q`; `w j i = none` means there is no such edge. -/
structure DiGraph (n : ℕ) where
  w : Fin n → Fin n → Option ℚ

variable {n : ℕ}

/-- The spec's data-model invariant: every edge that is present carries a
positive weight (absent edges contribute the default value `1 > 0`, so the
condition constrains present edges only). -/
def DiGraph.Valid (G : DiGraph n) : Prop :=
  ∀ j i : Fin n, 0 < (G.w j i).getD 1

instance (G : DiGraph n) : Decidable G.Valid := by
  unfold DiGraph.Valid; infer_instance

/-- `a = np.asarray(nx.adjacency_matrix(G, weight=weight).T.todense())`:
`adjT G i j` is the weight of the edge `j → i` (0 when absent). -/
def adjT (G : DiGraph n) : Matrix (Fin n) (Fin n) ℚ :=
  Matrix.of fun i j => (G.w j i).getD 0

/-- `rowsum = np.sum(a, axis=1)`: the in-degree weight sum `k_in[i]`. -/
def rowsum (G : DiGraph n) (i : Fin n) : ℚ :=
  ∑ j, adjT G i j

/-- The indices kept by the boolean mask `rowsum != 0`, in node order:
the non-basal nodes. -/
def nonBasal (G : DiGraph n) : List (Fin n) :=
  (List.finRange n).filter fun i => rowsum G i ≠ 0

/-- `nn = p.shape[0]`: the number of non-basal nodes. -/
def nn (G : DiGraph n) : ℕ :=
  (nonBasal G).length

/-- `p = a[rowsum != 0][:, rowsum != 0] / rowsum[rowsum != 0][:, np.newaxis]`:
the non-basal submatrix of `a`, each row divided by its in-degree weight sum. -/
def pMat (G : DiGraph n) : Matrix (Fin (nn G)) (Fin (nn G)) ℚ :=
  Matrix.of fun k l =>
    adjT G ((nonBasal G).get k) ((nonBasal G).get l) / rowsum G ((nonBasal G).get k)

/-- An executable determinant (Laplace expansion along the first row), used so
that concrete instances evaluate inside the kernel; `detQ_eq` identifies it
with Mathlib's `Matrix.det`. -/
def detQ : {m : ℕ} → Matrix (Fin m) (Fin m) ℚ → ℚ
  | 0, _ => 1
  | m + 1, A =>
    ∑ j : Fin (m + 1), (-1) ^ (j : ℕ) * A 0 j * detQ (A.submatrix Fin.succ j.succAbove)

/-- An executable adjugate matrix; `adjugateQ_eq` identifies it with Mathlib's
`Matrix.adjugate`. -/
def adjugateQ {m : ℕ} (A : Matrix (Fin m) (Fin m) ℚ) : Matrix (Fin m) (Fin m) ℚ :=
  Matrix.of fun i j => detQ (A.updateRow j (Pi.single i 1))

/-- `n = np.linalg.inv(i - p)`, written with the adjugate formula so that it is
executable; meaningful only when `detQ (1 - pMat G) ≠ 0`, which is exactly when
`np.linalg.inv` does not raise. -/
def nMat (G : DiGraph n) : Matrix (Fin (nn G)) (Fin (nn G)) ℚ :=
  (detQ (1 - pMat G))⁻¹ • adjugateQ (1 - pMat G)

/-- `y = n.sum(axis=1) + 1`: the levels of the non-basal nodes, indexed in the
order of `nonBasal G`. -/
def yVec (G : DiGraph n) (k : Fin (nn G)) : ℚ :=
  (∑ l, nMat G k l) + 1

/-- The (unweighted) in-degree of node `i`, as iterated by `G.in_degree`. -/
def inDeg (G : DiGraph n) (i : Fin n) : ℕ :=
  (Finset.univ.filter fun j => (G.w j i).isSome).card

/-- The nodes of nonzero in-degree, in node order (`nonzero_node_ids`). -/
def nonzeroInDeg (G : DiGraph n) : List (Fin n) :=
  (List.finRange n).filter fun i => inDeg G i ≠ 0

/-- The levels dictionary built by the two final loops: nodes of in-degree zero
get level 1; the `k`-th node of nonzero in-degree gets `y[k]` (the out-of-range
fallback 0 is unreachable whenever `trophic_levels` returns it, thanks to the
`IndexError` guard there). -/
def levelsFun (G : DiGraph n) : Fin n → ℚ := fun i =>
  if inDeg G i = 0 then 1
  else if hk : (nonzeroInDeg G).indexOf i < nn G then
    yVec G ⟨(nonzeroInDeg G).indexOf i, hk⟩
  else 0

/-- `trophic_levels` (trophic.py, lines 40–68): `none` models an uncaught
exception — `np.linalg.LinAlgError` from `np.linalg.inv` on a singular
`i - p`, or an `IndexError` when `y` runs out of entries in the final loop. -/
def trophic_levels (G : DiGraph n) : Option (Fin n → ℚ) :=
  if detQ (1 - pMat G) = 0 then none
  else if (nonzeroInDeg G).length ≤ nn G then some (levelsFun G)
  else none

/-! ### The error taxonomy and the capability guard (modelled from the spec) -/

/-- The spec's error taxonomy (§7): `DomainTypeError` for an undirected input,
`SingularSystemError` for a singular non-basal linear system. -/
inductive TrophicErr where
  | DomainTypeError : TrophicErr
  | SingularSystemError : TrophicErr
deriving DecidableEq

/-- A graph together with its direction capability flag, as consumed by the
capability check (§6: the graph abstraction exposes whether it is directed). -/
structure NXGraph (n : ℕ) where
  directed : Bool
  w : Fin n → Fin n → Option ℚ

/-- Modelled from the spec: the `@not_implemented_for('undirected')` capability
guard on `trophic_levels` (trophic.py line 10) — the decorator's implementing
code lives in `networkx/utils/decorators.py`, which is not among the
repository's files. Per §6/§7, an undirected input fails immediately with
`DomainTypeError`, before any matrix construction; on a directed input the
level computation runs, and its failure (a singular system) surfaces as
`SingularSystemError`. -/
def trophic_levels_checked (H : NXGraph n) : Except TrophicErr (Fin n → ℚ) :=
  if H.directed = false then Except.error TrophicErr.DomainTypeError
  else
    match trophic_levels ⟨H.w⟩ with
    | none => Except.error TrophicErr.SingularSystemError
    | some s => Except.ok s

/-! ### Trophic differences and coherence (modelled from the spec) -/

/-- The edge list of the graph, pairs `(source, target)`, in the deterministic
lexicographic node order. -/
def edges (G : DiGraph n) : List (Fin n × Fin n) :=
  (List.finRange n ×ˢ List.finRange n).filter fun e => (G.w e.1 e.2).isSome

/-- Modelled from the spec: `computeDifferences(graph, levels)` (§4.2) — the
code of `trophic_differences` is not among the repository's files (only its
tests are). For every edge `(j, i)` emit `difference[(j,i)] = levels[i] -
levels[j]`, as an association list keyed by the edge. -/
def computeDifferences (G : DiGraph n) (levels : Fin n → ℚ) :
    List ((Fin n × Fin n) × ℚ) :=
  (edges G).map fun e => (e, levels e.2 - levels e.1)

/-- Modelled from the spec: `trophic_differences` derives the levels and then
the per-edge differences (§2: graph → levels → differences); a level-computation
failure propagates. -/
def trophic_differences (G : DiGraph n) : Option (List ((Fin n × Fin n) × ℚ)) :=
  (trophic_levels G).map fun s => computeDifferences G s

/-- Arithmetic mean of a list of rationals. -/
def mean (xs : List ℚ) : ℚ :=
  xs.sum / xs.length

/-- Population variance of a list of rationals: the square of the population
standard deviation. -/
def popVariance (xs : List ℚ) : ℚ :=
  ((xs.map fun x => (x - mean xs) ^ 2).sum) / xs.length

/-- Modelled from the spec: `computeCoherence(graph, levels, includeCannibalism)`
(§4.3) — the code of `trophic_coherence` is not among the repository's files.
Differences are computed via `computeDifferences`; self-loop entries are
discarded when `includeCannibalism` is false; the result is the population
standard deviation of the remaining values, represented here by its square
(the population variance), since the standard deviation is not rational and is
determined by — and determines — the variance on nonnegative values. -/
def computeCoherenceSq (G : DiGraph n) (levels : Fin n → ℚ)
    (includeCannibalism : Bool) : ℚ :=
  popVariance (((computeDifferences G levels).filter fun e =>
    includeCannibalism || !(e.1.1 == e.1.2)).map Prod.snd)

/-- Modelled from the spec: `trophic_coherence` derives the levels and then the
coherence score (§2); a level-computation failure propagates. -/
def trophic_coherence_sq (G : DiGraph n) (includeCannibalism : Bool) : Option ℚ :=
  (trophic_levels G).map fun s => computeCoherenceSq G s includeCannibalism

/-! ### Concrete graphs used by the spec's scenarios -/

/-- The 2-node graph with the single unit-weight edge `0 → 1`. -/
def G2chain : DiGraph 2 :=
  ⟨fun j i => if j = 0 ∧ i = 1 then some 1 else none⟩

/-- The 3-node chain `0 → 1 → 2` (the spec's `a → b → c`) with unit weights. -/
def G3chain : DiGraph 3 :=
  ⟨fun j i => if (j = 0 ∧ i = 1) ∨ (j = 1 ∧ i = 2) then some 1 else none⟩

/-- The 4-node graph of adjacency `[[0,1,1,0],[0,0,1,1],[0,0,0,1],[0,0,0,0]]`:
edges `0→1, 0→2, 1→2, 1→3, 2→3`, unit weights. -/
def G4complex : DiGraph 4 :=
  ⟨fun j i =>
    if (j = 0 ∧ i = 1) ∨ (j = 0 ∧ i = 2) ∨ (j = 1 ∧ i = 2) ∨ (j = 1 ∧ i = 3) ∨
        (j = 2 ∧ i = 3)
    then some 1 else none⟩

/-- The identity-weighted complete self-loop set on 4 nodes: every node has
nonzero in-degree, so the non-basal system is singular. -/
def G4loops : DiGraph 4 :=
  ⟨fun j i => if j = i then some 1 else none⟩

/-- A 1-node graph with no edges: every node is basal. -/
def G1empty : DiGraph 1 :=
  ⟨fun _ _ => none⟩

/-- The empty graph, on 0 nodes. -/
def G0empty : DiGraph 0 :=
  ⟨fun j _ => j.elim0⟩

/-- An undirected 1-node input for the capability guard. -/
def H1undirected : NXGraph 1 :=
  ⟨false, fun _ _ => none⟩

/-! ### Basic facts about the embedding -/

theorem detQ_eq {m : ℕ} (A : Matrix (Fin m) (Fin m) ℚ) : detQ A = A.det := by
  induction m with
  | zero => rw [detQ, Matrix.det_isEmpty]
  | succ m ih =>
    rw [detQ, Matrix.det_succ_row_zero]
    exact Finset.sum_congr rfl fun j _ => by rw [ih]

theorem adjugateQ_eq {m : ℕ} (A : Matrix (Fin m) (Fin m) ℚ) : adjugateQ A = A.adjugate := by
  ext i j
  rw [adjugateQ, Matrix.adjugate_apply, Matrix.of_apply, detQ_eq]

/-- When `1 - pMat G` is nonsingular, `nMat G` is its (right) inverse. -/
theorem mul_nMat (G : DiGraph n) (h : detQ (1 - pMat G) ≠ 0) :
    (1 - pMat G) * nMat G = 1 := by
  rw [detQ_eq] at h
  rw [nMat, adjugateQ_eq, detQ_eq, Matrix.mul_smul, Matrix.mul_adjugate, smul_smul,
    inv_mul_cancel₀ h, one_smul]

theorem adjT_nonneg (G : DiGraph n) (hval : G.Valid) (i j : Fin n) : 0 ≤ adjT G i j := by
  have h := hval j i
  rw [adjT, Matrix.of_apply]
  cases hw : G.w j i with
  | none => simp
  | some q => rw [hw] at h; exact le_of_lt h

theorem inDeg_eq_zero_iff (G : DiGraph n) (i : Fin n) :
    inDeg G i = 0 ↔ ∀ j, G.w j i = none := by
  rw [inDeg, Finset.card_eq_zero, Finset.filter_eq_empty_iff]
  simp [Option.not_isSome_iff_eq_none]

theorem rowsum_eq_zero_iff (G : DiGraph n) (hval : G.Valid) (i : Fin n) :
    rowsum G i = 0 ↔ inDeg G i = 0 := by
  rw [inDeg_eq_zero_iff]
  constructor
  · intro h0 j
    by_contra hj
    cases hw : G.w j i with
    | none => exact hj hw
    | some q =>
      have hterm : 0 < adjT G i j := by
        have h := hval j i
        rw [hw] at h
        rw [adjT, Matrix.of_apply, hw]
        exact h
      have hpos : 0 < rowsum G i :=
        Finset.sum_pos' (fun l _ => adjT_nonneg G hval i l) ⟨j, Finset.mem_univ j, hterm⟩
      exact absurd h0 (ne_of_gt hpos)
  · intro h
    rw [rowsum]
    apply Finset.sum_eq_zero
    intro j _
    rw [adjT, Matrix.of_apply, h j]
    rfl

theorem nonzeroInDeg_eq_nonBasal (G : DiGraph n) (hval : G.Valid) :
    nonzeroInDeg G = nonBasal G := by
  apply List.filter_congr
  intro i _
  rw [decide_eq_decide]
  exact not_congr (rowsum_eq_zero_iff G hval i).symm

theorem nonBasal_nodup (G : DiGraph n) : (nonBasal G).Nodup :=
  (List.nodup_finRange n).filter _

theorem mem_nonBasal (G : DiGraph n) (i : Fin n) :
    i ∈ nonBasal G ↔ rowsum G i ≠ 0 := by
  simp [nonBasal, List.mem_filter]

/-- A sum over positions of a list of indices is the sum of the mapped list. -/
theorem sum_over_list_get (L : List (Fin n)) (f : Fin n → ℚ) :
    ∑ k : Fin L.length, f (L.get k) = (L.map f).sum := by
  conv_rhs => rw [← List.finRange_map_get L, List.map_map]
  rw [Fin.sum_univ_def]
  rfl

/-- Destructuring a successful run of `trophic_levels`. -/
theorem trophic_levels_eq_some (G : DiGraph n) (s : Fin n → ℚ)
    (hs : trophic_levels G = some s) :
    detQ (1 - pMat G) ≠ 0 ∧ (nonzeroInDeg G).length ≤ nn G ∧ s = levelsFun G := by
  rw [trophic_levels] at hs
  by_cases h1 : detQ (1 - pMat G) = 0
  · rw [if_pos h1] at hs; cases hs
  rw [if_neg h1] at hs
  by_cases h2 : (nonzeroInDeg G).length ≤ nn G
  · rw [if_pos h2] at hs
    exact ⟨h1, h2, (Option.some_inj.mp hs).symm⟩
  · rw [if_neg h2] at hs; cases hs

/-- On a non-basal node (for a valid graph), the levels dictionary holds the
corresponding entry of `y`, paired in the order of `nonBasal G`. -/
theorem levelsFun_nonBasal (G : DiGraph n) (hval : G.Valid) (k : Fin (nn G)) :
    levelsFun G ((nonBasal G).get k) = yVec G k := by
  have hmem : (nonBasal G).get k ∈ nonBasal G := List.get_mem _ _ _
  have hrs : rowsum G ((nonBasal G).get k) ≠ 0 := (mem_nonBasal G _).mp hmem
  have hdeg : ¬ inDeg G ((nonBasal G).get k) = 0 := fun h0 =>
    hrs ((rowsum_eq_zero_iff G hval _).mpr h0)
  rw [levelsFun, if_neg hdeg]
  have hidx : (nonzeroInDeg G).indexOf ((nonBasal G).get k) = (k : ℕ) := by
    rw [nonzeroInDeg_eq_nonBasal G hval]
    have hlt : (nonBasal G).indexOf ((nonBasal G).get k) < (nonBasal G).length :=
      List.indexOf_lt_length.mpr hmem
    have hget : (nonBasal G).get ⟨(nonBasal G).indexOf ((nonBasal G).get k), hlt⟩ =
        (nonBasal G).get k := List.indexOf_get hlt
    have := (List.Nodup.get_inj_iff (nonBasal_nodup G)).mp hget
    exact congrArg Fin.val this
  rw [dif_pos (by rw [hidx]; exact k.isLt)]
  congr 1
  exact Fin.ext hidx

/-- The row sums of `nMat G`, shifted by one, solve the linear system. -/
theorem yVec_sub_one (G : DiGraph n) (k : Fin (nn G)) :
    yVec G k - 1 = (nMat G).mulVec (fun _ => 1) k := by
  rw [yVec, add_sub_cancel_right, Matrix.mulVec, Matrix.dotProduct]
  exact Finset.sum_congr rfl fun l _ => (mul_one _).symm

/-! ### Evaluation of the concrete scenarios -/

theorem levels_G2chain : trophic_levels G2chain = some ![1, 2] := by
  rw [trophic_levels, if_neg (by with_unfolding_all decide),
    if_pos (by with_unfolding_all decide)]
  exact congrArg some (by funext i; fin_cases i <;> with_unfolding_all decide)

theorem levels_G3chain : trophic_levels G3chain = some ![1, 2, 3] := by
  rw [trophic_levels, if_neg (by with_unfolding_all decide),
    if_pos (by with_unfolding_all decide)]
  exact congrArg some (by funext i; fin_cases i <;> with_unfolding_all decide)

theorem levels_G4complex : trophic_levels G4complex = some ![1, 2, 5 / 2, 13 / 4] := by
  rw [trophic_levels, if_neg (by with_unfolding_all decide),
    if_pos (by with_unfolding_all decide)]
  exact congrArg some (by funext i; fin_cases i <;> with_unfolding_all decide)

/-! ### The claims -/

/-- C1: for every valid directed graph accepted by `trophic_levels` with at
least one non-basal node, the solve is well-posed (`I - P` nonsingular), the
returned level of the `k`-th non-basal node (in the deterministic order used to
build `P`) is `y[k] + 1`, and the vector `y` of the returned levels minus one
solves `(I - P) * y = 1_vector`. -/
theorem nonbasal_levels_solve_linear_system (G : DiGraph n) (hval : G.Valid)
    (s : Fin n → ℚ) (hs : trophic_levels G = some s) (hne : nonBasal G ≠ []) :
    detQ (1 - pMat G) ≠ 0 ∧
    (∀ k : Fin (nn G), s ((nonBasal G).get k) = yVec G k) ∧
    (1 - pMat G).mulVec (fun k => s ((nonBasal G).get k) - 1) = fun _ => 1 := by
  obtain ⟨hdet, hlen, hsf⟩ := trophic_levels_eq_some G s hs
  refine ⟨hdet, fun k => by rw [hsf]; exact levelsFun_nonBasal G hval k, ?_⟩
  have hv : (fun k : Fin (nn G) => s ((nonBasal G).get k) - 1) =
      (nMat G).mulVec (fun _ => 1) := by
    funext k
    rw [hsf, levelsFun_nonBasal G hval k, yVec_sub_one]
  rw [hv, Matrix.mulVec_mulVec, mul_nMat G hdet, Matrix.one_mulVec]

/-- C2: for every valid weighted directed graph on which `trophic_levels`
succeeds, every node whose in-degree weight sum is 0 is mapped to level
exactly 1. -/
theorem indegree_zero_level_one (G : DiGraph n) (hval : G.Valid) (s : Fin n → ℚ)
    (hs : trophic_levels G = some s) (i : Fin n) (hb : rowsum G i = 0) :
    s i = 1 := by
  obtain ⟨-, -, hsf⟩ := trophic_levels_eq_some G s hs
  rw [hsf, levelsFun, if_pos ((rowsum_eq_zero_iff G hval i).mp hb)]

/-- C3 counterexample: in the empty graph every node (vacuously) has nonzero
in-degree, yet `trophic_levels` succeeds (the code returns the empty mapping,
and the spec's own edge case for the empty graph demands success), so the
unrestricted claim fails at the empty graph. -/
theorem no_basal_fails_empty_graph_counterexample :
    (∀ i : Fin 0, rowsum G0empty i ≠ 0) ∧ (trophic_levels G0empty).isSome = true :=
  ⟨fun i => i.elim0, by with_unfolding_all decide⟩

/-- C3 (amended): for every directed graph with at least one node in which
every node has nonzero in-degree weight (no basal nodes), and more generally
whenever the non-basal system `I - P` is singular, `trophic_levels` fails
(returns `none`, the singular-system error), and in particular no partial
mapping is returned. -/
theorem no_basal_or_singular_fails (G : DiGraph n)
    (h : (0 < n ∧ ∀ i, rowsum G i ≠ 0) ∨ detQ (1 - pMat G) = 0) :
    trophic_levels G = none := by
  have hdet : detQ (1 - pMat G) = 0 := by
    rcases h with ⟨hn, hall⟩ | hdet
    · have hnb : nonBasal G = List.finRange n :=
        List.filter_eq_self.mpr fun i _ => by simpa using hall i
      have hl : nn G = n := by rw [nn, hnb, List.length_finRange]
      have hrow : ∀ k : Fin (nn G), ∑ l, pMat G k l = 1 := by
        intro k
        have hsum : ∀ i : Fin n, (List.map (adjT G i) (nonBasal G)).sum = rowsum G i :=
          fun i => by rw [hnb, rowsum, Fin.sum_univ_def]
        calc ∑ l, pMat G k l
            = (∑ l : Fin (nn G), adjT G ((nonBasal G).get k) ((nonBasal G).get l)) /
              rowsum G ((nonBasal G).get k) := (Finset.sum_div _ _ _).symm
          _ = (List.map (adjT G ((nonBasal G).get k)) (nonBasal G)).sum /
              rowsum G ((nonBasal G).get k) := by
                rw [show (∑ l : Fin (nn G), adjT G ((nonBasal G).get k) ((nonBasal G).get l)) =
                  (List.map (adjT G ((nonBasal G).get k)) (nonBasal G)).sum from
                  sum_over_list_get (nonBasal G) (adjT G ((nonBasal G).get k))]
          _ = rowsum G ((nonBasal G).get k) / rowsum G ((nonBasal G).get k) := by
                rw [hsum]
          _ = 1 := div_self (hall _)
      rw [detQ_eq]
      apply Matrix.exists_mulVec_eq_zero_iff.mp
      refine ⟨fun _ => 1, ?_, ?_⟩
      · intro h0
        have h1 : (1 : ℚ) = 0 := by simpa using congrFun h0 (⟨0, by omega⟩ : Fin (nn G))
        exact one_ne_zero h1
      · funext k
        simp only [Matrix.mulVec, Matrix.dotProduct, mul_one, Matrix.sub_apply,
          Finset.sum_sub_distrib, Pi.zero_apply]
        rw [hrow k]
        simp [Matrix.one_apply]
    · exact hdet
  rw [trophic_levels, if_pos hdet]

/-- C5: for every valid directed graph that is empty or in which every node is
basal (all in-degree weight sums zero), `trophic_levels` does not fail and maps
every node to level 1 (the degenerate 0×0 system raises no error). -/
theorem all_basal_levels_one (G : DiGraph n) (hval : G.Valid)
    (h : ∀ i, rowsum G i = 0) : trophic_levels G = some (fun _ => 1) := by
  have hnb : nonBasal G = [] := List.filter_eq_nil_iff.mpr fun i _ => by simpa using h i
  have h0 : nn G = 0 := by rw [nn, hnb]; rfl
  have hdet : detQ (1 - pMat G) = 1 := by
    rw [detQ_eq]
    haveI : IsEmpty (Fin (nn G)) := ⟨fun k => absurd k.isLt (by omega)⟩
    exact Matrix.det_isEmpty
  have hnz : nonzeroInDeg G = [] := by rw [nonzeroInDeg_eq_nonBasal G hval, hnb]
  rw [trophic_levels, if_neg (by rw [hdet]; exact one_ne_zero),
    if_pos (by simp [hnz])]
  refine congrArg some ?_
  funext i
  rw [levelsFun, if_pos ((rowsum_eq_zero_iff G hval i).mp (h i))]

/-- C4: for every undirected input graph, the guarded entry point fails
immediately with `DomainTypeError`, whatever the edge data is — no part of the
level computation is consulted. -/
theorem undirected_fails_domain_type (H : NXGraph n) (h : H.directed = false) :
    trophic_levels_checked H = Except.error TrophicErr.DomainTypeError := by
  rw [trophic_levels_checked, if_pos h]

/-- C6 counterexample: on the 2-node directed graph with the single unit-weight
edge `0 → 1`, `trophic_levels` returns levels `(1, 2)` for nodes `(0, 1)`, which
is not the claimed `(2, 1)`. -/
theorem edge01_levels_claim_false :
    (trophic_levels G2chain).map (fun s => (s 0, s 1)) = some ((1 : ℚ), (2 : ℚ)) ∧
    ((1 : ℚ), (2 : ℚ)) ≠ ((2 : ℚ), (1 : ℚ)) :=
  ⟨by rw [levels_G2chain]; with_unfolding_all decide, by with_unfolding_all decide⟩

/-- C6 (amended): for the 2-node directed graph with the single unit-weight
edge `0 → 1`, `trophic_levels` returns the mapping `{0: 1, 1: 2}` — the edge
direction drives the target's level upward. -/
theorem edge01_levels : trophic_levels G2chain = some ![1, 2] :=
  levels_G2chain

/-- C7: for the directed chain `a → b → c` (nodes `0 → 1 → 2` in insertion
order) with unit weights, `trophic_levels` returns exactly `{a: 1, b: 2, c: 3}`. -/
theorem chain3_levels : trophic_levels G3chain = some ![1, 2, 3] :=
  levels_G3chain

/-- C8: for the 4-node graph with unit-weight adjacency
`[[0,1,1,0],[0,0,1,1],[0,0,0,1],[0,0,0,0]]`, `trophic_levels` returns levels
`[1, 2, 2.5, 3.25]` for nodes 0..3 — exactly, hence within the tolerance
`1e-7`. -/
theorem complex4_levels : trophic_levels G4complex = some ![1, 2, 5 / 2, 13 / 4] :=
  levels_G4complex

/-- Looking up a key of a self-keyed association list. -/
theorem lookup_map_pair {α β : Type} [BEq α] [LawfulBEq α] (L : List α) (f : α → β)
    (a : α) (ha : a ∈ L) : (L.map fun x => (x, f x)).lookup a = some (f a) := by
  induction L with
  | nil => cases ha
  | cons x xs ih =>
    rw [List.map_cons]
    by_cases hx : a = x
    · subst hx
      simp [List.lookup]
    · have ha2 : a ∈ xs := by
        rcases List.mem_cons.mp ha with h | h
        · exact absurd h hx
        · exact h
      have hbeq : (a == x) = false := beq_eq_false_iff_ne.mpr hx
      simp [List.lookup, hbeq, ih ha2]

/-- In a list without duplicates, an element is counted once if present. -/
theorem count_of_nodup {α : Type} [BEq α] [LawfulBEq α] {L : List α} (h : L.Nodup)
    (a : α) : L.count a = if a ∈ L then 1 else 0 := by
  induction L with
  | nil => simp
  | cons x xs ih =>
    obtain ⟨hx, hxs⟩ := List.nodup_cons.mp h
    rw [List.count_cons]
    by_cases hax : a = x
    · subst hax
      simp [List.count_eq_zero.mpr hx]
    · have hbeq : (x == a) = false := beq_eq_false_iff_ne.mpr (Ne.symm hax)
      simp [hbeq, hax, ih hxs, List.mem_cons]

theorem mem_edges (G : DiGraph n) (e : Fin n × Fin n) :
    e ∈ edges G ↔ (G.w e.1 e.2).isSome := by
  cases e with
  | mk j i => simp [edges, List.mem_filter, List.mem_product]

theorem edges_nodup (G : DiGraph n) : (edges G).Nodup :=
  ((List.nodup_finRange n).product (List.nodup_finRange n)).filter _

/-- C9: on every directed graph whose levels were computed,
`computeDifferences` holds exactly one entry per edge `(j, i)` of the graph,
that entry's value is `levels[i] - levels[j]`, and a self-loop edge is retained
with difference 0. -/
theorem differences_per_edge (G : DiGraph n) (s : Fin n → ℚ)
    (hs : trophic_levels G = some s) :
    trophic_differences G = some (computeDifferences G s) ∧
    ∀ j i : Fin n,
      ((computeDifferences G s).map Prod.fst).count (j, i) =
        (if (G.w j i).isSome then 1 else 0) ∧
      ((G.w j i).isSome →
        (computeDifferences G s).lookup (j, i) = some (s i - s j)) ∧
      ((G.w i i).isSome →
        (computeDifferences G s).lookup (i, i) = some 0) := by
  have hkeys : (computeDifferences G s).map Prod.fst = edges G := by
    rw [computeDifferences, List.map_map]
    exact List.map_id _
  refine ⟨by rw [trophic_differences, hs]; rfl, fun j i => ⟨?_, ?_, ?_⟩⟩
  · rw [hkeys, count_of_nodup (edges_nodup G)]
    simp [mem_edges G (j, i)]
  · intro he
    exact lookup_map_pair (edges G) (fun e => s e.2 - s e.1) (j, i)
      ((mem_edges G (j, i)).mpr he)
  · intro he
    have h1 := lookup_map_pair (edges G) (fun e => s e.2 - s e.1) (i, i)
      ((mem_edges G (i, i)).mpr he)
    simpa [computeDifferences, sub_self] using h1

/-- On a graph without self-loops the cannibalism filter keeps every
difference entry, for either flag value. -/
theorem coherence_filter_id (G : DiGraph n) (hloop : ∀ i : Fin n, G.w i i = none)
    (s : Fin n → ℚ) (b : Bool) :
    (computeDifferences G s).filter (fun e => b || !(e.1.1 == e.1.2)) =
      computeDifferences G s := by
  apply List.filter_eq_self.mpr
  intro e he
  have h1 : e.1 ∈ edges G := by
    rcases List.mem_map.mp he with ⟨x, hx, rfl⟩
    exact hx
  have h2 : (G.w e.1.1 e.1.2).isSome := (mem_edges G e.1).mp h1
  have hne : ¬ e.1.1 = e.1.2 := fun hEq => by
    rw [hEq, hloop e.1.2] at h2
    cases h2
  simp [hne]

/-- C10: on every directed graph with no self-loop edges, the coherence with
`includeCannibalism = false` equals the coherence with `includeCannibalism =
true`, and (when the levels exist) the returned value is the dispersion
statistic — the population standard deviation, represented by its square, the
population variance — of all the edge trophic differences. -/
theorem coherence_cannibalism_irrelevant (G : DiGraph n)
    (hloop : ∀ i : Fin n, G.w i i = none) :
    trophic_coherence_sq G false = trophic_coherence_sq G true ∧
    ∀ s, trophic_levels G = some s →
      trophic_coherence_sq G false =
        some (popVariance ((computeDifferences G s).map Prod.snd)) := by
  constructor
  · rw [trophic_coherence_sq, trophic_coherence_sq]
    cases hl : trophic_levels G with
    | none => rfl
    | some s =>
      rw [Option.map_some', Option.map_some', computeCoherenceSq, computeCoherenceSq,
        coherence_filter_id G hloop s false, coherence_filter_id G hloop s true]
  · intro s hs
    rw [trophic_coherence_sq, hs, Option.map_some', computeCoherenceSq,
      coherence_filter_id G hloop s false]

/-! ### Witnesses: the theorems applied at concrete inputs -/

theorem nonbasal_levels_solve_linear_system_witness :
    detQ (1 - pMat G2chain) ≠ 0 ∧
    (∀ k : Fin (nn G2chain),
      (![1, 2] : Fin 2 → ℚ) ((nonBasal G2chain).get k) = yVec G2chain k) ∧
    (1 - pMat G2chain).mulVec
        (fun k => (![1, 2] : Fin 2 → ℚ) ((nonBasal G2chain).get k) - 1) =
      fun _ => 1 :=
  nonbasal_levels_solve_linear_system G2chain (by with_unfolding_all decide) ![1, 2]
    levels_G2chain (by with_unfolding_all decide)

theorem indegree_zero_level_one_witness :
    rowsum G2chain 0 = 0 ∧ (![1, 2] : Fin 2 → ℚ) 0 = 1 :=
  ⟨by with_unfolding_all decide,
    indegree_zero_level_one G2chain (by with_unfolding_all decide) ![1, 2]
      levels_G2chain 0 (by with_unfolding_all decide)⟩

theorem no_basal_or_singular_fails_witness : trophic_levels G4loops = none :=
  no_basal_or_singular_fails G4loops
    (Or.inl ⟨by decide, by with_unfolding_all decide⟩)

theorem undirected_fails_domain_type_witness :
    trophic_levels_checked H1undirected = Except.error TrophicErr.DomainTypeError :=
  undirected_fails_domain_type H1undirected rfl

theorem all_basal_levels_one_witness : trophic_levels G1empty = some (fun _ => 1) :=
  all_basal_levels_one G1empty (by with_unfolding_all decide)
    (by with_unfolding_all decide)

theorem differences_per_edge_witness :
    trophic_differences G2chain = some (computeDifferences G2chain ![1, 2]) ∧
    ∀ j i : Fin 2,
      ((computeDifferences G2chain ![1, 2]).map Prod.fst).count (j, i) =
        (if (G2chain.w j i).isSome then 1 else 0) ∧
      ((G2chain.w j i).isSome →
        (computeDifferences G2chain ![1, 2]).lookup (j, i) =
          some ((![1, 2] : Fin 2 → ℚ) i - (![1, 2] : Fin 2 → ℚ) j)) ∧
      ((G2chain.w i i).isSome →
        (computeDifferences G2chain ![1, 2]).lookup (i, i) = some 0) :=
  differences_per_edge G2chain ![1, 2] levels_G2chain

theorem coherence_cannibalism_irrelevant_witness :
    trophic_coherence_sq G2chain false = trophic_coherence_sq G2chain true ∧
    ∀ s, trophic_levels G2chain = some s →
      trophic_coherence_sq G2chain false =
        some (popVariance ((computeDifferences G2chain s).map Prod.snd)) :=
  coherence_cannibalism_irrelevant G2chain (by with_unfolding_all decide)

end TrophicSpec
